import Mathlib

/-!
Shallow embedding of the reconciliation and accrual engine of
`src/app.py` (function `calculate_balances` and its helpers).

Modelling conventions:
* Monetary amounts (Python floats holding currency values) are modelled as `ℚ`.
* Python `datetime` values are modelled by `PyDateTime`: every date produced by
  `parse_date_to_datetime` is timezone-naive at midnight, so a naive datetime is
  fully described by its calendar day number; the single timezone-aware value of
  a run is `target_date` (`ist.localize(last_date.replace(hour=16, minute=28))`),
  which keeps the calendar day of `last_date`.  Python raises `TypeError` when a
  naive and an aware datetime are compared or subtracted; that is the only error
  the engine can raise, modelled by `PyErr.typeError` in an `Except` result.
* `parse_date_to_datetime` (string parsing) is kept abstract as a parameter
  `parse : String → Option PyDateTime`; the engine only applies it to an
  original due-date string on line 294 of the source.
-/

/-- Python exceptions that the embedded code can raise. -/
inductive PyErr where
  | typeError
deriving DecidableEq

/-- A Python `datetime`: either timezone-naive (midnight of a calendar day, as
produced by `parse_date_to_datetime`) or timezone-aware (the reference date
built with `ist.localize`, 16:28 IST of a calendar day). -/
inductive PyDateTime where
  | naive (day : ℤ)
  | aware (day : ℤ)
deriving DecidableEq

/-- Embeds `days_between` (src/app.py lines 98-101):
`0` if either argument is `None`, otherwise `max((date2 - date1).days, 0)`.
Subtracting a naive from an aware datetime (or vice versa) raises `TypeError`
in Python. All naive datetimes are midnights and all aware datetimes share the
same time of day, so a legal subtraction yields the day difference. -/
def days_between : Option PyDateTime → Option PyDateTime → Except PyErr ℤ
  | none, _ => .ok 0
  | some _, none => .ok 0
  | some (.naive a), some (.naive b) => .ok (max (b - a) 0)
  | some (.aware a), some (.aware b) => .ok (max (b - a) 0)
  | some (.naive _), some (.aware _) => .error .typeError
  | some (.aware _), some (.naive _) => .error .typeError

/-- Python comparison `x > y` on datetimes: raises `TypeError` when one side is
naive and the other aware (used at line 239 of the source). -/
def pyGT : PyDateTime → PyDateTime → Except PyErr Bool
  | .naive a, .naive b => .ok (decide (b < a))
  | .aware a, .aware b => .ok (decide (b < a))
  | .naive _, .aware _ => .error .typeError
  | .aware _, .naive _ => .error .typeError

/-- A canonical transaction as built by `read_file_data` (lines 160-167):
`Date` and `Due_Date` are naive datetimes (day numbers), amounts are
non-negative floats, plus the original source strings. -/
structure Txn where
  Date : ℤ
  Debit : ℚ
  Credit : ℚ
  Due_Date : ℤ
  Original_Date_Str : String
  Original_Due_Date_Str : String
deriving DecidableEq

/-- A credit entry as built on lines 191-197. -/
structure CreditE where
  date : ℤ
  amount : ℚ
  original_date : String
  due_date : ℤ
  original_due_date : String
deriving DecidableEq

/-- A debit entry as built on lines 200-205; `remaining` starts equal to
`amount`. -/
structure DebitE where
  date : ℤ
  amount : ℚ
  remaining : ℚ
  original_date : String
deriving DecidableEq

/-- One allocation record appended to `matched_debits` (lines 227-231 and
259-263).  `debitIdx` is a ghost field: the position of the debit in the
sorted debit list, implicit in the source's iteration order and added here so
that allocations can be attributed to the debit they consumed. -/
structure Matched where
  debitIdx : ℕ
  payment_date : ℤ
  allocated : ℚ
  original_date : String
deriving DecidableEq

/-- An entry of `overdue_with_interest` (lines 277-285). -/
structure OverdueE where
  credit_date : String
  credit_amount : ℚ
  due_date : String
  unpaid_amount : ℚ
  interest : ℚ
  total_with_interest : ℚ
  matched_debits : List Matched
deriving DecidableEq

/-- An entry of `pending_credits` (lines 241-248). -/
structure PendingE where
  credit_date : String
  credit_amount : ℚ
  due_date : String
  unpaid_amount : ℚ
  days_remaining : ℤ
  matched_debits : List Matched
deriving DecidableEq

/-- `daily_rate = 0.18` (line 215). -/
def daily_rate : ℚ := 0.18

/-- The hardcoded principal threshold `83171.71` (line 287). -/
def threshold : ℚ := 83171.71

/-- Result of an allocation pass: the remaining principal (or balance), the
updated debit list, and the allocations recorded by the pass. -/
structure PassOut where
  rp : ℚ
  debits : List DebitE
  ms : List Matched
deriving DecidableEq

/-- The on-time allocation pass (lines 224-234): scan all debits in order; a
debit is used when `remaining > 0` and `credit_date ≤ debit.date ≤ due_date`;
allocate `min(remaining_principal, debit.remaining)` and decrement both sides.
The scan does not stop when the principal is exhausted (it then records
zero-amount allocations).  `idx` is the ghost position of the first debit of
`debits` in the full sorted list. -/
def onTimePass (credit_date due_date : ℤ) (rp : ℚ) :
    List DebitE → ℕ → PassOut
  | [], _ => ⟨rp, [], []⟩
  | d :: rest, idx =>
    if 0 < d.remaining ∧ credit_date ≤ d.date ∧ d.date ≤ due_date then
      let alloc := min rp d.remaining
      let out := onTimePass credit_date due_date (rp - alloc) rest (idx + 1)
      ⟨out.rp, { d with remaining := d.remaining - alloc } :: out.debits,
        ⟨idx, d.date, alloc, d.original_date⟩ :: out.ms⟩
    else
      let out := onTimePass credit_date due_date rp rest (idx + 1)
      ⟨out.rp, d :: out.debits, out.ms⟩

/-- Result of the late pass (lines 254-268): final balance, the cursor
`current_date`, accrued interest, updated debits, recorded allocations. -/
structure LateOut where
  balance : ℚ
  current : ℤ
  interest : ℚ
  debits : List DebitE
  ms : List Matched
deriving DecidableEq

/-- The late allocation pass with per-segment accrual (lines 254-268): for each
debit with `remaining > 0` and `date > due_date`, accrue
`balance * daily_rate * days` on the balance *before* the allocation
(`days = days_between(current_date, debit.date)`, two naive datetimes, which
never raises), allocate `min(balance, debit.remaining)`, advance the cursor,
and break once the balance is ≤ 0. -/
def latePass (due_date : ℤ) (balance : ℚ) (current : ℤ) (interest : ℚ) :
    List DebitE → ℕ → LateOut
  | [], _ => ⟨balance, current, interest, [], []⟩
  | d :: rest, idx =>
    if 0 < d.remaining ∧ due_date < d.date then
      let days : ℤ := max (d.date - current) 0
      let interest1 := interest + balance * daily_rate * (days : ℚ)
      let alloc := min balance d.remaining
      let d1 : DebitE := { d with remaining := d.remaining - alloc }
      let balance1 := balance - alloc
      if balance1 ≤ 0 then
        ⟨balance1, d.date, interest1, d1 :: rest, [⟨idx, d.date, alloc, d.original_date⟩]⟩
      else
        let out := latePass due_date balance1 d.date interest1 rest (idx + 1)
        ⟨out.balance, out.current, out.interest, d1 :: out.debits,
          ⟨idx, d.date, alloc, d.original_date⟩ :: out.ms⟩
    else
      let out := latePass due_date balance current interest rest (idx + 1)
      ⟨out.balance, out.current, out.interest, d :: out.debits, out.ms⟩

/-- The engine state threaded through the credit loop.  `allocs` is a ghost
trace accumulating every `matched_debits` record the source builds (including
those of settled credits, which the source discards with its local variable). -/
structure EngState where
  debits : List DebitE
  overdue : List OverdueE
  pending : List PendingE
  total_principal : ℚ
  total_interest : ℚ
  allocs : List Matched
deriving DecidableEq

/-- The on-time pass (lines 224-234) that the credit loop runs for `c` in
state `s`. -/
def otpOf (s : EngState) (c : CreditE) : PassOut :=
  onTimePass c.date c.due_date c.amount s.debits 0

/-- `unpaid_at_due` of lines 235-236: the credit amount minus everything the
on-time pass allocated. -/
def unpaidOf (s : EngState) (c : CreditE) : ℚ :=
  c.amount - ((otpOf s c).ms.map (·.allocated)).sum

/-- The late pass (lines 251-268) that the credit loop runs for `c` when
`unpaid_at_due > 0`: balance starts at `unpaid_at_due`, the cursor at the due
date, interest at zero, over the debit list left by the on-time pass. -/
def lpOf (s : EngState) (c : CreditE) : LateOut :=
  latePass c.due_date (unpaidOf s c) c.due_date 0 (otpOf s c).debits 0

/-- Lines 287-298: once `total_principal ≥ 83171.71`, reduce the last overdue
entry by the excess, recompute its interest from a re-parse of its original
due-date string, and `break` out of the credit loop (the `break` happens even
when no adjustment is made). -/
def thresholdBlock (parse : String → Option PyDateTime) (target : PyDateTime)
    (s1 : EngState) : Except PyErr (EngState × Bool) :=
  if threshold ≤ s1.total_principal then
    let excess := s1.total_principal - threshold
    if 0 < excess ∧ s1.overdue ≠ [] then
      match s1.overdue.getLast? with
      | none => .ok (s1, true)
      | some last =>
        let principal_reduction := min excess last.unpaid_amount
        let unpaid1 := last.unpaid_amount - principal_reduction
        match days_between (parse last.due_date) (some target) with
        | .error e => .error e
        | .ok days =>
          let interest1 := unpaid1 * daily_rate * (days : ℚ)
          let last1 : OverdueE :=
            { last with
               unpaid_amount := unpaid1
               interest := interest1
               total_with_interest := unpaid1 + interest1 }
          let overdue1 := s1.overdue.dropLast ++ [last1]
          .ok ({ s1 with
                  overdue := overdue1
                  total_principal := s1.total_principal - principal_reduction
                  total_interest := (overdue1.map (·.interest)).sum }, true)
    else .ok (s1, true)
  else .ok (s1, false)

/-- One iteration of the credit loop (lines 217-298).  Returns the updated
state and whether the loop `break`s (line 298).  Raises `TypeError` exactly
where Python would: comparing or subtracting a naive datetime with the aware
`target_date`. -/
def processCredit (parse : String → Option PyDateTime) (target : PyDateTime)
    (s : EngState) (credit : CreditE) : Except PyErr (EngState × Bool) :=
  let otp := otpOf s credit
  let unpaid_at_due := unpaidOf s credit
  if unpaid_at_due ≤ 0 then
    -- lines 238-249; Python short-circuit: `due_date > target_date` is only
    -- evaluated when `remaining_principal > 0`
    if 0 < otp.rp then
      match pyGT (.naive credit.due_date) target with
      | .error e => .error e
      | .ok b =>
        if b then
          match days_between (some target) (some (.naive credit.due_date)) with
          | .error e => .error e
          | .ok days_remaining =>
            .ok ({ s with
                    debits := otp.debits
                    pending := s.pending ++
                      [⟨credit.original_date, credit.amount, credit.original_due_date,
                        otp.rp, days_remaining, otp.ms⟩]
                    allocs := s.allocs ++ otp.ms }, false)
        else
          .ok ({ s with debits := otp.debits, allocs := s.allocs ++ otp.ms }, false)
    else
      .ok ({ s with debits := otp.debits, allocs := s.allocs ++ otp.ms }, false)
  else
    let lp := lpOf s credit
    let ms := otp.ms ++ lp.ms
    -- lines 270-272: the final accrual segment subtracts a naive cursor from
    -- the timezone-aware target date
    match (if 0 < lp.balance then days_between (some (.naive lp.current)) (some target)
           else .ok 0) with
    | .error e => .error e
    | .ok finalDays =>
      let interest :=
        if 0 < lp.balance then lp.interest + lp.balance * daily_rate * (finalDays : ℚ)
        else lp.interest
      -- lines 274-285
      let s1 :=
        if 0 < lp.balance then
          { s with
             debits := lp.debits
             overdue := s.overdue ++
               [⟨credit.original_date, credit.amount, credit.original_due_date,
                 lp.balance, interest, lp.balance + interest, ms⟩]
             total_principal := s.total_principal + lp.balance
             total_interest := s.total_interest + interest
             allocs := s.allocs ++ ms }
        else { s with debits := lp.debits, allocs := s.allocs ++ ms }
      -- lines 287-298: hardcoded principal threshold with unconditional break
      thresholdBlock parse target s1

/-- The credit loop (line 217): process credits in order, stopping on an
exception or on the threshold `break`. -/
def creditsLoop (parse : String → Option PyDateTime) (target : PyDateTime) :
    EngState → List CreditE → Except PyErr EngState
  | s, [] => .ok s
  | s, c :: rest =>
    match processCredit parse target s c with
    | .error e => .error e
    | .ok (s1, brk) => if brk then .ok s1 else creditsLoop parse target s1 rest

/-- Builds a credit entry from a transaction row (lines 191-197). -/
def mkCredit (t : Txn) : CreditE :=
  ⟨t.Date, t.Credit, t.Original_Date_Str, t.Due_Date, t.Original_Due_Date_Str⟩

/-- Builds a debit entry from a transaction row (lines 200-205); `remaining`
starts equal to the amount. -/
def mkDebit (t : Txn) : DebitE :=
  ⟨t.Date, t.Debit, t.Debit, t.Original_Date_Str⟩

/-- The credit rows (`Credit > 0`), sorted ascending by date with a stable
tie-break on input order (line 208; Python's sort is stable, as is insertion
sort). -/
def sortedCredits (ts : List Txn) : List CreditE :=
  List.insertionSort (fun a b => a.date ≤ b.date)
    ((ts.filter (fun t => 0 < t.Credit)).map mkCredit)

/-- The debit rows (`Debit > 0`), sorted ascending by date, stable (line 209). -/
def sortedDebits (ts : List Txn) : List DebitE :=
  List.insertionSort (fun a b => a.date ≤ b.date)
    ((ts.filter (fun t => 0 < t.Debit)).map mkDebit)

/-- The internal outcome of a run that passed the empty-input guard. -/
structure RunOut where
  state : EngState
  total_credits : ℚ
  total_debits : ℚ
  target : PyDateTime
deriving DecidableEq

/-- Embeds lines 171-298 of `calculate_balances`, returning the final engine
state (`none` models the early 8-tuple return for an empty transaction list,
lines 173-174).  The reference date (lines 177-179) is the maximum transaction
date, made timezone-aware with a fixed 16:28 IST time of day. -/
def runEngine (parse : String → Option PyDateTime) :
    List Txn → Except PyErr (Option RunOut)
  | [] => .ok none
  | t0 :: rest =>
    let last_date := rest.foldl (fun m x => max m x.Date) t0.Date
    let target := PyDateTime.aware last_date
    let total_credits := (((t0 :: rest).filter (fun t => 0 < t.Credit)).map (·.Credit)).sum
    let total_debits := (((t0 :: rest).filter (fun t => 0 < t.Debit)).map (·.Debit)).sum
    match creditsLoop parse target ⟨sortedDebits (t0 :: rest), [], [], 0, 0, []⟩
        (sortedCredits (t0 :: rest)) with
    | .error e => .error e
    | .ok s => .ok (some ⟨s, total_credits, total_debits, target⟩)

/-- The full 9-tuple returned on line 303. -/
structure Report where
  overdue_with_interest : List OverdueE
  pending_credits : List PendingE
  total_credits : ℚ
  total_debits : ℚ
  total_principal : ℚ
  total_interest : ℚ
  gst : ℚ
  total_amount_due : ℚ
  target_date : PyDateTime
deriving DecidableEq

/-- What `calculate_balances` returns: either the 8-tuple
`([], [], 0, 0, 0, 0, 0, 0)` of the empty-input early return (line 174, with
no target date), or the full 9-tuple report (line 303). -/
inductive EngineOut where
  | empty
  | report (r : Report)
deriving DecidableEq

/-- Lines 300-303: `gst = 0.18 * total_interest` and
`total_amount_due = total_principal + total_interest + gst`. -/
def mkReport (ro : RunOut) : Report :=
  let gst := (0.18 : ℚ) * ro.state.total_interest
  { overdue_with_interest := ro.state.overdue
    pending_credits := ro.state.pending
    total_credits := ro.total_credits
    total_debits := ro.total_debits
    total_principal := ro.state.total_principal
    total_interest := ro.state.total_interest
    gst := gst
    total_amount_due := ro.state.total_principal + ro.state.total_interest + gst
    target_date := ro.target }

/-- Embeds `calculate_balances` (src/app.py lines 171-303). -/
def calculate_balances (parse : String → Option PyDateTime) (transactions : List Txn) :
    Except PyErr EngineOut :=
  match runEngine parse transactions with
  | .error e => .error e
  | .ok none => .ok .empty
  | .ok (some ro) => .ok (.report (mkReport ro))

deriving instance DecidableEq for Except

/-- A trivial stand-in for `parse_date_to_datetime` used for concrete runs;
the engine only ever applies the parser inside the (unreachable) threshold
block. -/
def parse0 : String → Option PyDateTime := fun _ => none

/-- The caller-visible effect of one engine call: the source function reads
its `transactions` argument but only ever writes to the fresh per-run
dictionaries it builds on lines 189-206 (`credits`, `debits`) and to per-run
locals, so the caller's transaction list is returned unchanged. -/
def calculate_balances_st (parse : String → Option PyDateTime)
    (transactions : List Txn) : Except PyErr EngineOut × List Txn :=
  (calculate_balances parse transactions, transactions)

/-- Total amount allocated to the debit at (ghost) position `k` by the
allocation records `ms`. -/
def allocSum (ms : List Matched) (k : ℕ) : ℚ :=
  ((ms.filter (fun m => m.debitIdx == k)).map (·.allocated)).sum

/-- Applies the allocations `ms` to a debit list whose head sits at ghost
position `idx`: each debit's `remaining` is decreased by the total allocated
to it. -/
def remMap (ms : List Matched) : ℕ → List DebitE → List DebitE
  | _, [] => []
  | idx, d :: rest =>
    { d with remaining := d.remaining - allocSum ms idx } :: remMap ms (idx + 1) rest

/-- The allocation invariant of a run: the current debit list is the initial
one with each debit's `remaining` decreased by exactly what the allocation
trace granted it, remainders never go negative, and every recorded allocation
is non-negative. -/
def INV (debits0 : List DebitE) (s : EngState) : Prop :=
  s.debits = remMap s.allocs 0 debits0 ∧
  (∀ d ∈ s.debits, 0 ≤ d.remaining) ∧
  (∀ m ∈ s.allocs, 0 ≤ m.allocated)

/-- The totals invariant: the running totals equal the sums over the overdue
entries recorded so far. -/
def TotInv (s : EngState) : Prop :=
  s.total_principal = (s.overdue.map (·.unpaid_amount)).sum ∧
  s.total_interest = (s.overdue.map (·.interest)).sum

/-- The on-time pass as §4.1 of the specification words it: scan eligible
debits in order, allocate `min(creditRemainingPrincipal, debit.remaining)`,
decrement both sides, and stop as soon as the credit's principal is exhausted
or no more eligible debits exist.  Modelled from the spec for the refinement
claim about the on-time pass. -/
def specOnTimePass (credit_date due_date : ℤ) (rp : ℚ) :
    List DebitE → ℕ → PassOut
  | [], _ => ⟨rp, [], []⟩
  | d :: rest, idx =>
    if rp ≤ 0 then ⟨rp, d :: rest, []⟩
    else if 0 < d.remaining ∧ credit_date ≤ d.date ∧ d.date ≤ due_date then
      let alloc := min rp d.remaining
      let out := specOnTimePass credit_date due_date (rp - alloc) rest (idx + 1)
      ⟨out.rp, { d with remaining := d.remaining - alloc } :: out.debits,
        ⟨idx, d.date, alloc, d.original_date⟩ :: out.ms⟩
    else
      let out := specOnTimePass credit_date due_date rp rest (idx + 1)
      ⟨out.rp, d :: out.debits, out.ms⟩

theorem allocSum_nil (k : ℕ) : allocSum [] k = 0 := rfl

theorem allocSum_cons (m : Matched) (ms : List Matched) (k : ℕ) :
    allocSum (m :: ms) k =
      (if m.debitIdx = k then m.allocated else 0) + allocSum ms k := by
  by_cases h : m.debitIdx = k <;> simp [allocSum, List.filter_cons, h]

theorem allocSum_append (a b : List Matched) (k : ℕ) :
    allocSum (a ++ b) k = allocSum a k + allocSum b k := by
  simp [allocSum, List.filter_append]

theorem allocSum_eq_zero {ms : List Matched} {k : ℕ}
    (h : ∀ m ∈ ms, m.debitIdx ≠ k) : allocSum ms k = 0 := by
  induction ms with
  | nil => rfl
  | cons m rest ih =>
    rw [allocSum_cons, if_neg (h m (List.mem_cons_self m rest)),
      ih (fun x hx => h x (List.mem_cons_of_mem m hx))]
    ring

theorem allocSum_nonneg {ms : List Matched} (h : ∀ m ∈ ms, 0 ≤ m.allocated)
    (k : ℕ) : 0 ≤ allocSum ms k := by
  induction ms with
  | nil => simp [allocSum_nil]
  | cons m rest ih =>
    rw [allocSum_cons]
    have h1 := h m (List.mem_cons_self m rest)
    have h2 := ih (fun x hx => h x (List.mem_cons_of_mem m hx))
    positivity

theorem remMap_length (ms : List Matched) :
    ∀ (idx : ℕ) (l : List DebitE), (remMap ms idx l).length = l.length := by
  intro idx l
  induction l generalizing idx with
  | nil => rfl
  | cons d rest ih => simp [remMap, ih]

theorem remMap_congr {ms1 ms2 : List Matched} :
    ∀ (idx : ℕ) (l : List DebitE),
      (∀ k, idx ≤ k → allocSum ms1 k = allocSum ms2 k) →
      remMap ms1 idx l = remMap ms2 idx l := by
  intro idx l
  induction l generalizing idx with
  | nil => intro _; rfl
  | cons d rest ih =>
    intro h
    simp only [remMap, h idx (le_refl idx)]
    rw [ih (idx + 1) (fun k hk => h k (by omega))]

theorem remMap_id {ms : List Matched} :
    ∀ (idx : ℕ) (l : List DebitE),
      (∀ k, idx ≤ k → allocSum ms k = 0) → remMap ms idx l = l := by
  intro idx l
  induction l generalizing idx with
  | nil => intro _; rfl
  | cons d rest ih =>
    intro h
    simp only [remMap, h idx (le_refl idx), sub_zero]
    rw [ih (idx + 1) (fun k hk => h k (by omega))]

theorem remMap_remMap (ms1 ms2 : List Matched) :
    ∀ (idx : ℕ) (l : List DebitE),
      remMap ms2 idx (remMap ms1 idx l) = remMap (ms1 ++ ms2) idx l := by
  intro idx l
  induction l generalizing idx with
  | nil => rfl
  | cons d rest ih =>
    simp only [remMap, allocSum_append, ih (idx + 1)]
    congr 1
    simp only [sub_sub]

theorem remMap_get? (ms : List Matched) :
    ∀ (l : List DebitE) (idx j : ℕ),
      (remMap ms idx l).get? j =
        (l.get? j).map
          (fun d => { d with remaining := d.remaining - allocSum ms (idx + j) }) := by
  intro l
  induction l with
  | nil => intro idx j; simp [remMap]
  | cons d rest ih =>
    intro idx j
    cases j with
    | zero => simp [remMap]
    | succ j =>
      simp only [remMap, List.get?_cons_succ]
      rw [ih (idx + 1) j, show idx + (j + 1) = idx + 1 + j from by omega]

theorem onTimePass_ms_lb (cd dd : ℤ) :
    ∀ (dbs : List DebitE) (rp : ℚ) (idx : ℕ),
      ∀ m ∈ (onTimePass cd dd rp dbs idx).ms, idx ≤ m.debitIdx := by
  intro dbs
  induction dbs with
  | nil => intro rp idx m hm; simp [onTimePass] at hm
  | cons d rest ih =>
    intro rp idx m hm
    by_cases hc : 0 < d.remaining ∧ cd ≤ d.date ∧ d.date ≤ dd
    · simp only [onTimePass, if_pos hc, List.mem_cons] at hm
      rcases hm with h | h
      · subst h; exact le_refl idx
      · exact le_trans (Nat.le_succ idx) (ih _ (idx + 1) m h)
    · simp only [onTimePass, if_neg hc] at hm
      exact le_trans (Nat.le_succ idx) (ih _ (idx + 1) m hm)

theorem onTimePass_debits (cd dd : ℤ) :
    ∀ (dbs : List DebitE) (rp : ℚ) (idx : ℕ),
      (onTimePass cd dd rp dbs idx).debits =
        remMap (onTimePass cd dd rp dbs idx).ms idx dbs := by
  intro dbs
  induction dbs with
  | nil => intro rp idx; rfl
  | cons d rest ih =>
    intro rp idx
    by_cases hc : 0 < d.remaining ∧ cd ≤ d.date ∧ d.date ≤ dd
    · have hms := onTimePass_ms_lb cd dd rest (rp - min rp d.remaining) (idx + 1)
      have hz : allocSum (onTimePass cd dd (rp - min rp d.remaining) rest (idx + 1)).ms idx = 0 :=
        allocSum_eq_zero (fun m hm => by have := hms m hm; omega)
      simp only [onTimePass, if_pos hc, remMap, allocSum_cons, hz]
      congr 1
      · simp
      · rw [ih (rp - min rp d.remaining) (idx + 1)]
        exact remMap_congr (idx + 1) rest (fun k hk => by
          rw [allocSum_cons, if_neg (by omega : ¬(idx = k))]; ring)
    · have hms := onTimePass_ms_lb cd dd rest rp (idx + 1)
      have hz : allocSum (onTimePass cd dd rp rest (idx + 1)).ms idx = 0 :=
        allocSum_eq_zero (fun m hm => by have := hms m hm; omega)
      simp only [onTimePass, if_neg hc, remMap, hz, sub_zero]
      congr 1
      exact ih rp (idx + 1)

theorem onTimePass_rp (cd dd : ℤ) :
    ∀ (dbs : List DebitE) (rp : ℚ) (idx : ℕ),
      (onTimePass cd dd rp dbs idx).rp =
        rp - ((onTimePass cd dd rp dbs idx).ms.map (·.allocated)).sum := by
  intro dbs
  induction dbs with
  | nil => intro rp idx; simp [onTimePass]
  | cons d rest ih =>
    intro rp idx
    by_cases hc : 0 < d.remaining ∧ cd ≤ d.date ∧ d.date ≤ dd
    · simp only [onTimePass, if_pos hc, List.map_cons, List.sum_cons]
      rw [ih (rp - min rp d.remaining) (idx + 1)]
      ring
    · simp only [onTimePass, if_neg hc]
      exact ih rp (idx + 1)

theorem onTimePass_nonneg (cd dd : ℤ) :
    ∀ (dbs : List DebitE) (rp : ℚ) (idx : ℕ),
      0 ≤ rp → (∀ d ∈ dbs, 0 ≤ d.remaining) →
      0 ≤ (onTimePass cd dd rp dbs idx).rp ∧
      (∀ d ∈ (onTimePass cd dd rp dbs idx).debits, 0 ≤ d.remaining) ∧
      (∀ m ∈ (onTimePass cd dd rp dbs idx).ms, 0 ≤ m.allocated) := by
  intro dbs
  induction dbs with
  | nil =>
    intro rp idx hrp _
    refine ⟨hrp, ?_, ?_⟩ <;> intro x hx <;> simp [onTimePass] at hx
  | cons d rest ih =>
    intro rp idx hrp hdb
    have hdhead : 0 ≤ d.remaining := hdb d (List.mem_cons_self d rest)
    have hdrest : ∀ x ∈ rest, 0 ≤ x.remaining :=
      fun x hx => hdb x (List.mem_cons_of_mem d hx)
    by_cases hc : 0 < d.remaining ∧ cd ≤ d.date ∧ d.date ≤ dd
    · have halloc0 : 0 ≤ min rp d.remaining := le_min hrp hdhead
      have halloc1 : min rp d.remaining ≤ rp := min_le_left _ _
      have halloc2 : min rp d.remaining ≤ d.remaining := min_le_right _ _
      have hrec := ih (rp - min rp d.remaining) (idx + 1) (by linarith) hdrest
      simp only [onTimePass, if_pos hc]
      refine ⟨hrec.1, ?_, ?_⟩
      · intro x hx
        rcases List.mem_cons.mp hx with h | h
        · subst h; simp only; linarith
        · exact hrec.2.1 x h
      · intro m hm
        rcases List.mem_cons.mp hm with h | h
        · subst h; exact halloc0
        · exact hrec.2.2 m h
    · have hrec := ih rp (idx + 1) hrp hdrest
      simp only [onTimePass, if_neg hc]
      refine ⟨hrec.1, ?_, ?_⟩
      · intro x hx
        rcases List.mem_cons.mp hx with h | h
        · subst h; exact hdhead
        · exact hrec.2.1 x h
      · exact hrec.2.2

theorem latePass_ms_lb (dd : ℤ) :
    ∀ (dbs : List DebitE) (b : ℚ) (cur : ℤ) (int : ℚ) (idx : ℕ),
      ∀ m ∈ (latePass dd b cur int dbs idx).ms, idx ≤ m.debitIdx := by
  intro dbs
  induction dbs with
  | nil => intro b cur int idx m hm; simp [latePass] at hm
  | cons d rest ih =>
    intro b cur int idx m hm
    by_cases hc : 0 < d.remaining ∧ dd < d.date
    · by_cases hb : b - min b d.remaining ≤ 0
      · simp only [latePass, if_pos hc, if_pos hb, List.mem_singleton] at hm
        subst hm; exact le_refl idx
      · simp only [latePass, if_pos hc, if_neg hb, List.mem_cons] at hm
        rcases hm with h | h
        · subst h; exact le_refl idx
        · exact le_trans (Nat.le_succ idx) (ih _ _ _ (idx + 1) m h)
    · simp only [latePass, if_neg hc] at hm
      exact le_trans (Nat.le_succ idx) (ih _ _ _ (idx + 1) m hm)

theorem latePass_debits (dd : ℤ) :
    ∀ (dbs : List DebitE) (b : ℚ) (cur : ℤ) (int : ℚ) (idx : ℕ),
      (latePass dd b cur int dbs idx).debits =
        remMap (latePass dd b cur int dbs idx).ms idx dbs := by
  intro dbs
  induction dbs with
  | nil => intro b cur int idx; rfl
  | cons d rest ih =>
    intro b cur int idx
    by_cases hc : 0 < d.remaining ∧ dd < d.date
    · by_cases hb : b - min b d.remaining ≤ 0
      · simp only [latePass, if_pos hc, if_pos hb, remMap, allocSum_cons]
        congr 1
        · simp [allocSum_nil]
        · exact (remMap_id (idx + 1) rest (fun k hk => by
            rw [allocSum_cons, if_neg (by omega : ¬(idx = k)), allocSum_nil]
            ring)).symm
      · have hms := latePass_ms_lb dd rest (b - min b d.remaining) d.date
          (int + b * daily_rate * ((max (d.date - cur) 0 : ℤ) : ℚ)) (idx + 1)
        have hz : allocSum (latePass dd (b - min b d.remaining) d.date
            (int + b * daily_rate * ((max (d.date - cur) 0 : ℤ) : ℚ)) rest (idx + 1)).ms idx = 0 :=
          allocSum_eq_zero (fun m hm => by have := hms m hm; omega)
        simp only [latePass, if_pos hc, if_neg hb, remMap, allocSum_cons, hz]
        congr 1
        · simp
        · rw [ih (b - min b d.remaining) d.date
            (int + b * daily_rate * ((max (d.date - cur) 0 : ℤ) : ℚ)) (idx + 1)]
          exact remMap_congr (idx + 1) rest (fun k hk => by
            rw [allocSum_cons, if_neg (by omega : ¬(idx = k))]; ring)
    · have hms := latePass_ms_lb dd rest b cur int (idx + 1)
      have hz : allocSum (latePass dd b cur int rest (idx + 1)).ms idx = 0 :=
        allocSum_eq_zero (fun m hm => by have := hms m hm; omega)
      simp only [latePass, if_neg hc, remMap, hz, sub_zero]
      congr 1
      exact ih b cur int (idx + 1)

theorem latePass_nonneg (dd : ℤ) :
    ∀ (dbs : List DebitE) (b : ℚ) (cur : ℤ) (int : ℚ) (idx : ℕ),
      0 ≤ b → (∀ d ∈ dbs, 0 ≤ d.remaining) →
      0 ≤ (latePass dd b cur int dbs idx).balance ∧
      (∀ d ∈ (latePass dd b cur int dbs idx).debits, 0 ≤ d.remaining) ∧
      (∀ m ∈ (latePass dd b cur int dbs idx).ms, 0 ≤ m.allocated) := by
  intro dbs
  induction dbs with
  | nil =>
    intro b cur int idx hb _
    refine ⟨hb, ?_, ?_⟩ <;> intro x hx <;> simp [latePass] at hx
  | cons d rest ih =>
    intro b cur int idx hb hdb
    have hdhead : 0 ≤ d.remaining := hdb d (List.mem_cons_self d rest)
    have hdrest : ∀ x ∈ rest, 0 ≤ x.remaining :=
      fun x hx => hdb x (List.mem_cons_of_mem d hx)
    by_cases hc : 0 < d.remaining ∧ dd < d.date
    · have halloc0 : 0 ≤ min b d.remaining := le_min hb hdhead
      have halloc1 : min b d.remaining ≤ b := min_le_left _ _
      have halloc2 : min b d.remaining ≤ d.remaining := min_le_right _ _
      by_cases hbb : b - min b d.remaining ≤ 0
      · simp only [latePass, if_pos hc, if_pos hbb]
        refine ⟨by linarith, ?_, ?_⟩
        · intro x hx
          rcases List.mem_cons.mp hx with h | h
          · subst h; simp only; linarith
          · exact hdrest x h
        · intro m hm
          rcases List.mem_singleton.mp hm with h
          subst h; exact halloc0
      · have hrec := ih (b - min b d.remaining) d.date
          (int + b * daily_rate * ((max (d.date - cur) 0 : ℤ) : ℚ)) (idx + 1)
          (by linarith) hdrest
        simp only [latePass, if_pos hc, if_neg hbb]
        refine ⟨hrec.1, ?_, ?_⟩
        · intro x hx
          rcases List.mem_cons.mp hx with h | h
          · subst h; simp only; linarith
          · exact hrec.2.1 x h
        · intro m hm
          rcases List.mem_cons.mp hm with h | h
          · subst h; exact halloc0
          · exact hrec.2.2 m h
    · have hrec := ih b cur int (idx + 1) hb hdrest
      simp only [latePass, if_neg hc]
      refine ⟨hrec.1, ?_, ?_⟩
      · intro x hx
        rcases List.mem_cons.mp hx with h | h
        · subst h; exact hdhead
        · exact hrec.2.1 x h
      · exact hrec.2.2

theorem thresholdBlock_fields {parse : String → Option PyDateTime}
    {target : PyDateTime} {s1 s2 : EngState} {brk : Bool}
    (h : thresholdBlock parse target s1 = .ok (s2, brk)) :
    s2.debits = s1.debits ∧ s2.allocs = s1.allocs ∧ s2.pending = s1.pending ∧
    s2.overdue.length = s1.overdue.length := by
  simp only [thresholdBlock] at h
  by_cases h1 : threshold ≤ s1.total_principal
  · rw [if_pos h1] at h
    by_cases h2 : 0 < s1.total_principal - threshold ∧ s1.overdue ≠ []
    · rw [if_pos h2] at h
      cases hlast : s1.overdue.getLast? with
      | none => rw [hlast] at h; cases h; exact ⟨rfl, rfl, rfl, rfl⟩
      | some last =>
        simp only [hlast] at h
        cases hd : days_between (parse last.due_date) (some target) with
        | error e => simp only [hd] at h; exact Except.noConfusion h
        | ok days =>
          simp only [hd] at h
          cases h
          have hlen : 0 < s1.overdue.length := List.length_pos.mpr h2.2
          refine ⟨rfl, rfl, rfl, ?_⟩
          simp only [List.length_append, List.length_dropLast, List.length_singleton]
          omega
    · rw [if_neg h2] at h; cases h; exact ⟨rfl, rfl, rfl, rfl⟩
  · rw [if_neg h1] at h; cases h; exact ⟨rfl, rfl, rfl, rfl⟩

theorem otpOf_rp (s : EngState) (c : CreditE) : (otpOf s c).rp = unpaidOf s c := by
  rw [otpOf, onTimePass_rp c.date c.due_date s.debits c.amount 0]
  rfl

theorem processCredit_settled {parse : String → Option PyDateTime}
    {target : PyDateTime} {s : EngState} {c : CreditE}
    (hu : unpaidOf s c ≤ 0) :
    processCredit parse target s c =
      .ok ({ s with
              debits := (otpOf s c).debits
              allocs := s.allocs ++ (otpOf s c).ms }, false) := by
  simp only [processCredit]
  rw [if_pos hu, if_neg (by rw [otpOf_rp]; exact not_lt.mpr hu)]

theorem processCredit_late_shape {parse : String → Option PyDateTime}
    {target : PyDateTime} {s : EngState} {c : CreditE} {s1 : EngState} {brk : Bool}
    (hu : ¬ unpaidOf s c ≤ 0)
    (h : processCredit parse target s c = .ok (s1, brk)) :
    ∃ S1, thresholdBlock parse target S1 = .ok (s1, brk) ∧
      S1.debits = (lpOf s c).debits ∧
      S1.allocs = s.allocs ++ ((otpOf s c).ms ++ (lpOf s c).ms) ∧
      S1.pending = s.pending ∧
      ((0 < (lpOf s c).balance ∧
         ∃ fi, S1.overdue = s.overdue ++
            [⟨c.original_date, c.amount, c.original_due_date, (lpOf s c).balance,
              fi, (lpOf s c).balance + fi, (otpOf s c).ms ++ (lpOf s c).ms⟩] ∧
           S1.total_principal = s.total_principal + (lpOf s c).balance ∧
           S1.total_interest = s.total_interest + fi) ∨
       (¬ 0 < (lpOf s c).balance ∧ S1.overdue = s.overdue ∧
         S1.total_principal = s.total_principal ∧
         S1.total_interest = s.total_interest)) := by
  simp only [processCredit] at h
  rw [if_neg hu] at h
  by_cases hbal : 0 < (lpOf s c).balance
  · rw [if_pos hbal] at h
    cases hfd : days_between (some (.naive (lpOf s c).current)) (some target) with
    | error e => simp only [hfd] at h; exact Except.noConfusion h
    | ok finalDays =>
      simp only [hfd, if_pos hbal] at h
      refine ⟨_, h, rfl, rfl, rfl, Or.inl ⟨hbal, ?_⟩⟩
      exact ⟨(lpOf s c).interest + (lpOf s c).balance * daily_rate * (finalDays : ℚ),
        rfl, rfl, rfl⟩
  · rw [if_neg hbal] at h
    simp only [if_neg hbal] at h
    exact ⟨_, h, rfl, rfl, rfl, Or.inr ⟨hbal, rfl, rfl, rfl⟩⟩

theorem processCredit_pending {parse : String → Option PyDateTime}
    {target : PyDateTime} {s : EngState} {c : CreditE} {s1 : EngState} {brk : Bool}
    (h : processCredit parse target s c = .ok (s1, brk)) :
    s1.pending = s.pending := by
  by_cases hu : unpaidOf s c ≤ 0
  · rw [processCredit_settled hu] at h
    cases h
    rfl
  · obtain ⟨S1, hS1, _, _, hSp, _⟩ := processCredit_late_shape hu h
    rw [(thresholdBlock_fields hS1).2.2.1, hSp]

theorem processCredit_inv {debits0 : List DebitE} {parse : String → Option PyDateTime}
    {target : PyDateTime} {s : EngState} {c : CreditE} {s1 : EngState} {brk : Bool}
    (hinv : INV debits0 s) (hc : 0 ≤ c.amount)
    (h : processCredit parse target s c = .ok (s1, brk)) : INV debits0 s1 := by
  obtain ⟨hdb, hdn, han⟩ := hinv
  have hotp := onTimePass_nonneg c.date c.due_date s.debits c.amount 0 hc hdn
  have hotpd : (otpOf s c).debits = remMap (otpOf s c).ms 0 s.debits :=
    onTimePass_debits c.date c.due_date s.debits c.amount 0
  by_cases hu : unpaidOf s c ≤ 0
  · rw [processCredit_settled hu] at h
    cases h
    refine ⟨?_, hotp.2.1, ?_⟩
    · show (otpOf s c).debits = remMap (s.allocs ++ (otpOf s c).ms) 0 debits0
      rw [hotpd, hdb, remMap_remMap]
    · show ∀ m ∈ s.allocs ++ (otpOf s c).ms, 0 ≤ m.allocated
      intro m hm
      rcases List.mem_append.mp hm with hm | hm
      · exact han m hm
      · exact hotp.2.2 m hm
  · obtain ⟨S1, hS1, hSd, hSa, _, _⟩ := processCredit_late_shape hu h
    have hfields := thresholdBlock_fields hS1
    have hlp := latePass_nonneg c.due_date (otpOf s c).debits (unpaidOf s c)
      c.due_date 0 0 (le_of_lt (not_le.mp hu)) hotp.2.1
    have hlpd : (lpOf s c).debits = remMap (lpOf s c).ms 0 (otpOf s c).debits :=
      latePass_debits c.due_date (otpOf s c).debits (unpaidOf s c) c.due_date 0 0
    refine ⟨?_, ?_, ?_⟩
    · rw [hfields.1, hSd, hfields.2.1, hSa, hlpd, hotpd, hdb, remMap_remMap,
        remMap_remMap]
    · rw [hfields.1, hSd]
      exact hlp.2.1
    · rw [hfields.2.1, hSa]
      intro m hm
      rcases List.mem_append.mp hm with hm | hm
      · exact han m hm
      · rcases List.mem_append.mp hm with hm | hm
        · exact hotp.2.2 m hm
        · exact hlp.2.2 m hm

theorem thresholdBlock_totinv {parse : String → Option PyDateTime}
    {target : PyDateTime} {s1 s2 : EngState} {brk : Bool}
    (h : thresholdBlock parse target s1 = .ok (s2, brk)) (ht : TotInv s1) :
    TotInv s2 := by
  simp only [thresholdBlock] at h
  by_cases h1 : threshold ≤ s1.total_principal
  · rw [if_pos h1] at h
    by_cases h2 : 0 < s1.total_principal - threshold ∧ s1.overdue ≠ []
    · rw [if_pos h2] at h
      cases hlast : s1.overdue.getLast? with
      | none => rw [hlast] at h; cases h; exact ht
      | some last =>
        simp only [hlast] at h
        cases hd : days_between (parse last.due_date) (some target) with
        | error e => simp only [hd] at h; exact Except.noConfusion h
        | ok days =>
          simp only [hd] at h
          cases h
          have hne : s1.overdue ≠ [] := h2.2
          have hgl : last = s1.overdue.getLast hne := by
            rw [List.getLast?_eq_getLast s1.overdue hne] at hlast
            exact (Option.some.inj hlast).symm
          have hsplit : s1.overdue.dropLast ++ [last] = s1.overdue := by
            rw [hgl]
            exact List.dropLast_append_getLast hne
          constructor
          · have hp := ht.1
            rw [← hsplit] at hp
            simp only [List.map_append, List.sum_append, List.map_cons, List.map_nil,
              List.sum_cons, List.sum_nil] at hp ⊢
            linarith
          · rfl
    · rw [if_neg h2] at h; cases h; exact ht
  · rw [if_neg h1] at h; cases h; exact ht

theorem processCredit_totinv {parse : String → Option PyDateTime}
    {target : PyDateTime} {s : EngState} {c : CreditE} {s1 : EngState} {brk : Bool}
    (ht : TotInv s) (h : processCredit parse target s c = .ok (s1, brk)) :
    TotInv s1 := by
  by_cases hu : unpaidOf s c ≤ 0
  · rw [processCredit_settled hu] at h
    cases h
    exact ht
  · obtain ⟨S1, hS1, _, _, _, hdisj⟩ := processCredit_late_shape hu h
    refine thresholdBlock_totinv hS1 ?_
    rcases hdisj with ⟨hbal, fi, hov, hp, hi⟩ | ⟨hbal, hov, hp, hi⟩
    · constructor
      · rw [hp, hov, List.map_append, List.sum_append, ← ht.1]
        simp
      · rw [hi, hov, List.map_append, List.sum_append, ← ht.2]
        simp
    · constructor
      · rw [hp, hov, ← ht.1]
      · rw [hi, hov, ← ht.2]

theorem creditsLoop_preserves {parse : String → Option PyDateTime}
    {target : PyDateTime} (P : EngState → Prop) (Q : CreditE → Prop) :
    ∀ (cs : List CreditE) (s s' : EngState),
      (∀ c ∈ cs, Q c) →
      (∀ s0 c s1 brk, Q c → P s0 →
        processCredit parse target s0 c = .ok (s1, brk) → P s1) →
      P s → creditsLoop parse target s cs = .ok s' → P s' := by
  intro cs
  induction cs with
  | nil =>
    intro s s' _ _ hp h
    cases h
    exact hp
  | cons c rest ih =>
    intro s s' hq hstep hp h
    simp only [creditsLoop] at h
    cases hpc : processCredit parse target s c with
    | error e => simp only [hpc] at h; exact Except.noConfusion h
    | ok pair =>
      obtain ⟨s1, brk⟩ := pair
      simp only [hpc] at h
      have hp1 := hstep s c s1 brk (hq c (List.mem_cons_self c rest)) hp hpc
      cases brk with
      | true => rw [if_pos rfl] at h; cases h; exact hp1
      | false =>
        rw [if_neg Bool.false_ne_true] at h
        exact ih s1 s' (fun x hx => hq x (List.mem_cons_of_mem c hx)) hstep hp1 h

theorem sortedCredits_mem {ts : List Txn} {c : CreditE} (hc : c ∈ sortedCredits ts) :
    0 < c.amount := by
  unfold sortedCredits at hc
  have hperm := List.perm_insertionSort (fun a b : CreditE => a.date ≤ b.date)
    ((ts.filter (fun t => 0 < t.Credit)).map mkCredit)
  rw [hperm.mem_iff] at hc
  obtain ⟨t, ht, rfl⟩ := List.mem_map.mp hc
  have hmem := List.mem_filter.mp ht
  have : 0 < t.Credit := by simpa using hmem.2
  simpa [mkCredit] using this

theorem sortedDebits_mem {ts : List Txn} {d : DebitE} (hd : d ∈ sortedDebits ts) :
    d.remaining = d.amount ∧ 0 < d.amount := by
  unfold sortedDebits at hd
  have hperm := List.perm_insertionSort (fun a b : DebitE => a.date ≤ b.date)
    ((ts.filter (fun t => 0 < t.Debit)).map mkDebit)
  rw [hperm.mem_iff] at hd
  obtain ⟨t, ht, rfl⟩ := List.mem_map.mp hd
  have hmem := List.mem_filter.mp ht
  have : 0 < t.Debit := by simpa using hmem.2
  exact ⟨rfl, by simpa [mkDebit] using this⟩

theorem runEngine_state {parse : String → Option PyDateTime} {ts : List Txn}
    {ro : RunOut} (h : runEngine parse ts = .ok (some ro)) :
    INV (sortedDebits ts) ro.state ∧ TotInv ro.state ∧ ro.state.pending = [] := by
  cases ts with
  | nil => simp [runEngine] at h
  | cons t0 rest =>
    simp only [runEngine] at h
    cases hloop : creditsLoop parse
        (PyDateTime.aware (rest.foldl (fun m x => max m x.Date) t0.Date))
        ⟨sortedDebits (t0 :: rest), [], [], 0, 0, []⟩ (sortedCredits (t0 :: rest)) with
    | error e => simp only [hloop] at h; exact Except.noConfusion h
    | ok s =>
      simp only [hloop] at h
      cases h
      refine creditsLoop_preserves
        (fun st => INV (sortedDebits (t0 :: rest)) st ∧ TotInv st ∧ st.pending = [])
        (fun c => 0 ≤ c.amount) (sortedCredits (t0 :: rest)) _ s
        (fun c hc => le_of_lt (sortedCredits_mem hc))
        (fun s0 c s1 brk hQ hP hpc =>
          ⟨processCredit_inv hP.1 hQ hpc, processCredit_totinv hP.2.1 hpc,
            by rw [processCredit_pending hpc]; exact hP.2.2⟩)
        ⟨⟨?_, ?_, ?_⟩, ⟨rfl, rfl⟩, rfl⟩ hloop
      · exact (remMap_id 0 (sortedDebits (t0 :: rest)) (fun k _ => allocSum_nil k)).symm
      · intro d hd
        have := sortedDebits_mem hd
        rw [this.1]
        exact le_of_lt this.2
      · intro m hm
        exact absurd hm (List.not_mem_nil m)

theorem calculate_balances_report {parse : String → Option PyDateTime}
    {ts : List Txn} {r : Report}
    (h : calculate_balances parse ts = .ok (.report r)) :
    ∃ ro, runEngine parse ts = .ok (some ro) ∧ r = mkReport ro := by
  unfold calculate_balances at h
  cases hr : runEngine parse ts with
  | error e => simp only [hr] at h; exact Except.noConfusion h
  | ok o =>
    cases o with
    | none =>
      simp only [hr] at h
      injection h with h2
      exact EngineOut.noConfusion h2
    | some ro =>
      simp only [hr] at h
      injection h with h2
      injection h2 with h3
      exact ⟨ro, rfl, h3.symm⟩

theorem engine_pending_empty {parse : String → Option PyDateTime}
    {ts : List Txn} {r : Report}
    (h : calculate_balances parse ts = .ok (.report r)) :
    r.pending_credits = [] := by
  obtain ⟨ro, hro, rfl⟩ := calculate_balances_report h
  exact (runEngine_state hro).2.2

theorem onTimePass_zero (cd dd : ℤ) :
    ∀ (dbs : List DebitE) (idx : ℕ),
      (onTimePass cd dd 0 dbs idx).rp = 0 ∧
      (onTimePass cd dd 0 dbs idx).debits = dbs ∧
      ∀ m ∈ (onTimePass cd dd 0 dbs idx).ms, m.allocated = 0 := by
  intro dbs
  induction dbs with
  | nil =>
    intro idx
    refine ⟨rfl, rfl, ?_⟩
    intro m hm
    simp [onTimePass] at hm
  | cons d rest ih =>
    intro idx
    by_cases hc : 0 < d.remaining ∧ cd ≤ d.date ∧ d.date ≤ dd
    · have hmin : min (0 : ℚ) d.remaining = 0 := min_eq_left (le_of_lt hc.1)
      have hrec := ih (idx + 1)
      simp only [onTimePass, if_pos hc, hmin, sub_zero]
      refine ⟨hrec.1, ?_, ?_⟩
      · rw [hrec.2.1]
      · intro m hm
        rcases List.mem_cons.mp hm with hm | hm
        · rw [hm]
        · exact hrec.2.2 m hm
    · have hrec := ih (idx + 1)
      simp only [onTimePass, if_neg hc]
      exact ⟨hrec.1, by rw [hrec.2.1], hrec.2.2⟩

/-- Input for C1: two credits, no debits; the first becomes overdue. -/
def tsC1 : List Txn :=
  [⟨0, 0, 1000, 10, "a1", "a1d"⟩, ⟨1, 0, 500, 11, "b1", "b1d"⟩]

/-- C1: the claim says every credit row is processed by Step 4 and amounts are
conserved, with no early stop.  On `tsC1` the run instead raises `TypeError`
while computing the final accrual segment of the *first* credit (naive cursor
minus timezone-aware reference date, line 271), so the second credit is never
processed and no balances are returned at all; the loop additionally contains
the hardcoded-threshold `break` of lines 287-298. -/
theorem C1_run_aborts : calculate_balances parse0 tsC1 = .error .typeError := by
  norm_num [tsC1, calculate_balances, runEngine, creditsLoop, processCredit,
    thresholdBlock, otpOf, unpaidOf, lpOf, onTimePass, latePass, sortedCredits,
    sortedDebits, mkCredit, mkDebit, daily_rate, threshold, days_between, pyGT,
    parse0, mkReport]

/-- Input for the C2 counterexample: a credit of 1000 due day 10, fully paid
late by a debit of 1000 on day 15, reference date day 15. -/
def tsC2x : List Txn :=
  [⟨0, 0, 1000, 10, "c1", "cd1"⟩, ⟨15, 1000, 0, 15, "d1", "dd1"⟩]

/-- The initial engine state of the `tsC2x` run. -/
def sC2x : EngState := ⟨[⟨15, 1000, 1000, "d1"⟩], [], [], 0, 0, []⟩

/-- The single credit of the `tsC2x` run. -/
def cC2x : CreditE := ⟨0, 1000, "c1", 10, "cd1"⟩

/-- The report the `tsC2x` run returns: empty overdue list, zero totals. -/
def rC2x : Report := ⟨[], [], 1000, 1000, 0, 0, 0, 0, .aware 15⟩

/-- C2 counterexample: on `tsC2x` the credit has `unpaid_at_due = 1000 > 0`
and the late pass accrues 900 of interest before the balance reaches exactly
zero — yet the run returns a report whose overdue list is empty (and whose
`total_interest` is 0), because line 274 tests only `balance > 0`.  The claim
that such a credit is classified Overdue is false. -/
theorem C2_zero_balance_not_reported :
    calculate_balances parse0 tsC2x = .ok (.report rC2x) ∧
    rC2x.overdue_with_interest = [] ∧ rC2x.total_interest = 0 ∧
    0 < unpaidOf sC2x cC2x ∧
    (lpOf sC2x cC2x).balance = 0 ∧ (lpOf sC2x cC2x).interest = 900 := by
  refine ⟨?_, ?_, ?_, ?_, ?_, ?_⟩ <;>
    norm_num [tsC2x, sC2x, cC2x, rC2x, calculate_balances, runEngine,
      creditsLoop, processCredit, thresholdBlock, otpOf, unpaidOf, lpOf,
      onTimePass, latePass, sortedCredits, sortedDebits, mkCredit, mkDebit,
      daily_rate, threshold, days_between, pyGT, parse0, mkReport]

/-- C2 (amended): a credit with positive `unpaid_at_due` is recorded in the
overdue output if and only if its final balance after the late pass is
positive; when the balance reaches exactly zero the credit is not reported,
even when interest accrued (that interest is also dropped from the totals). -/
theorem C2_overdue_iff_positive_balance :
    ∀ (parse : String → Option PyDateTime) (target : PyDateTime) (s : EngState)
      (c : CreditE) (s1 : EngState) (brk : Bool),
      processCredit parse target s c = .ok (s1, brk) →
      0 < unpaidOf s c →
      (s1.overdue.length = s.overdue.length + 1 ↔ 0 < (lpOf s c).balance) := by
  intro parse target s c s1 brk h hu
  obtain ⟨S1, hS1, _, _, _, hdisj⟩ := processCredit_late_shape (not_le.mpr hu) h
  have hlen := (thresholdBlock_fields hS1).2.2.2
  rcases hdisj with ⟨hbal, fi, hov, _, _⟩ | ⟨hbal, hov, _, _⟩
  · rw [hlen, hov]
    simp only [List.length_append, List.length_singleton]
    exact ⟨fun _ => hbal, fun _ => trivial⟩
  · rw [hlen, hov]
    exact ⟨fun hh => absurd hh (by omega), fun hh => absurd hh hbal⟩

/-- Witness state for the C2 amended theorem (a hypothetical naive reference
date exercises the classification without tripping the timezone defect). -/
def sC2w : EngState := ⟨[⟨15, 400, 400, "dw"⟩], [], [], 0, 0, []⟩

/-- Witness credit for the C2 amended theorem. -/
def cC2w : CreditE := ⟨0, 1000, "cw", 10, "cwd"⟩

/-- Witness post-state for the C2 amended theorem. -/
def s1C2w : EngState :=
  ⟨[⟨15, 400, 0, "dw"⟩],
   [⟨"cw", 1000, "cwd", 600, 1440, 2040, [⟨0, 15, 400, "dw"⟩]⟩],
   [], 600, 1440, [⟨0, 15, 400, "dw"⟩]⟩

/-- Witness for the C2 amended theorem at a concrete credit with positive
final balance. -/
theorem C2_overdue_iff_positive_balance_witness :
    0 < unpaidOf sC2w cC2w ∧
    (s1C2w.overdue.length = sC2w.overdue.length + 1 ↔ 0 < (lpOf sC2w cC2w).balance) := by
  have hu : 0 < unpaidOf sC2w cC2w := by
    norm_num [sC2w, cC2w, unpaidOf, otpOf, onTimePass]
  have hpc : processCredit parse0 (.naive 20) sC2w cC2w = .ok (s1C2w, false) := by
    norm_num [sC2w, cC2w, s1C2w, processCredit, thresholdBlock, otpOf, unpaidOf,
      lpOf, onTimePass, latePass, daily_rate, threshold, days_between, pyGT, parse0]
  exact ⟨hu, C2_overdue_iff_positive_balance parse0 (.naive 20) sC2w cC2w s1C2w
    false hpc hu⟩

/-- Input for C3: Scenario D of the specification — a credit of 1000 due day
10 with no payment, reference date day 5 (the second row only moves the
maximum date). -/
def tsC3 : List Txn :=
  [⟨0, 0, 1000, 10, "c3", "c3d"⟩, ⟨5, 0, 0, 10, "e3", "e3d"⟩]

/-- C3: the claim says this run yields a Pending entry with
`daysRemaining = 5`.  Instead the run raises `TypeError`: the Pending branch
(lines 238-248) is unreachable because its guard needs
`unpaid_at_due ≤ 0 < remaining_principal` while the two quantities are always
equal, so the not-yet-due unpaid credit falls into the overdue path and the
final-segment day count mixes a naive date with the aware reference date. -/
theorem C3_pending_scenario_crashes :
    calculate_balances parse0 tsC3 = .error .typeError := by
  norm_num [tsC3, calculate_balances, runEngine, creditsLoop, processCredit,
    thresholdBlock, otpOf, unpaidOf, lpOf, onTimePass, latePass, sortedCredits,
    sortedDebits, mkCredit, mkDebit, daily_rate, threshold, days_between, pyGT,
    parse0, mkReport]

/-- Input for C4: a single overdue credit; the second row moves the reference
date to day 20. -/
def tsC4 : List Txn :=
  [⟨0, 0, 2000, 10, "f4", "f4d"⟩, ⟨20, 0, 0, 15, "g4", "g4d"⟩]

/-- C4: the claim says every comparison and day count between a due date and
the reference date is well-defined and raises no error.  On `tsC4` the day
count of line 271 subtracts the naive due-date cursor from the timezone-aware
reference date and raises `TypeError`. -/
theorem C4_day_count_type_error :
    calculate_balances parse0 tsC4 = .error .typeError := by
  norm_num [tsC4, calculate_balances, runEngine, creditsLoop, processCredit,
    thresholdBlock, otpOf, unpaidOf, lpOf, onTimePass, latePass, sortedCredits,
    sortedDebits, mkCredit, mkDebit, daily_rate, threshold, days_between, pyGT,
    parse0, mkReport]

/-- C5 counterexample: on an empty canonical transaction list the engine does
not fail — it returns the zero-valued 8-tuple early result (line 174). -/
theorem C5_empty_counterexample :
    calculate_balances parse0 [] = .ok EngineOut.empty := rfl

/-- C5 (amended): for every parser, an empty canonical transaction list makes
`calculate_balances` return the empty zero-valued result (an 8-tuple with
empty lists, zero totals and no reference date) instead of raising an error. -/
theorem C5_empty_amended :
    ∀ parse : String → Option PyDateTime,
      calculate_balances parse [] = .ok EngineOut.empty :=
  fun _ => rfl

/-- C6: for every run that returns (no exception was raised), every recorded
allocation is non-negative, the final debit list is the initial sorted one
with each debit's `remaining` reduced by exactly the total allocated to it,
remainders never go negative, and consequently for each debit the sum of
`allocated` over every allocation referencing it, plus the debit's final
`remaining`, equals its original amount — so that sum never exceeds the
amount (debit non-reuse). -/
theorem C6_debit_non_reuse :
    ∀ (parse : String → Option PyDateTime) (ts : List Txn) (ro : RunOut),
      runEngine parse ts = .ok (some ro) →
      (∀ m ∈ ro.state.allocs, 0 ≤ m.allocated) ∧
      ro.state.debits = remMap ro.state.allocs 0 (sortedDebits ts) ∧
      (∀ d ∈ ro.state.debits, 0 ≤ d.remaining) ∧
      (∀ (j : ℕ) (d0 d : DebitE),
        (sortedDebits ts).get? j = some d0 → ro.state.debits.get? j = some d →
        allocSum ro.state.allocs j + d.remaining = d0.amount ∧
        0 ≤ d.remaining ∧ allocSum ro.state.allocs j ≤ d0.amount) := by
  intro parse ts ro h
  obtain ⟨⟨hdb, hdn, han⟩, _, _⟩ := runEngine_state h
  refine ⟨han, hdb, hdn, ?_⟩
  intro j d0 d h0 h1
  have hg := remMap_get? ro.state.allocs (sortedDebits ts) 0 j
  rw [← hdb, h0] at hg
  simp only [Option.map_some', Nat.zero_add] at hg
  rw [h1] at hg
  have hd := Option.some.inj hg
  have hd0mem : d0 ∈ sortedDebits ts := List.get?_mem h0
  have hdmem : d ∈ ro.state.debits := List.get?_mem h1
  have hra := (sortedDebits_mem hd0mem).1
  have hdr : d.remaining = d0.remaining - allocSum ro.state.allocs j := by
    rw [hd]
  have hnn := hdn d hdmem
  rw [hra] at hdr
  exact ⟨by linarith, hnn, by linarith⟩

/-- C6 witness input: one credit of 1000 settled on time by one debit. -/
def tsC6 : List Txn :=
  [⟨0, 0, 1000, 10, "c6", "c6d"⟩, ⟨5, 1000, 0, 10, "d6", "d6d"⟩]

/-- C6 witness run outcome: the debit is fully consumed by one allocation of
1000. -/
def roC6 : RunOut :=
  ⟨⟨[⟨5, 1000, 0, "d6"⟩], [], [], 0, 0, [⟨0, 5, 1000, "d6"⟩]⟩, 1000, 1000, .aware 5⟩

/-- Witness for C6 at the concrete run `tsC6`, debit position 0. -/
theorem C6_debit_non_reuse_witness :
    allocSum roC6.state.allocs 0 + (DebitE.mk 5 1000 0 "d6").remaining =
      (DebitE.mk 5 1000 1000 "d6").amount ∧
    0 ≤ (DebitE.mk 5 1000 0 "d6").remaining ∧
    allocSum roC6.state.allocs 0 ≤ (DebitE.mk 5 1000 1000 "d6").amount := by
  have hrun : runEngine parse0 tsC6 = .ok (some roC6) := by
    norm_num [tsC6, roC6, runEngine, creditsLoop, processCredit, thresholdBlock,
      otpOf, unpaidOf, lpOf, onTimePass, latePass, sortedCredits, sortedDebits,
      mkCredit, mkDebit, daily_rate, threshold, days_between, pyGT, parse0]
  refine (C6_debit_non_reuse parse0 tsC6 roC6 hrun).2.2.2 0
    (DebitE.mk 5 1000 1000 "d6") (DebitE.mk 5 1000 0 "d6") ?_ ?_
  · norm_num [tsC6, sortedDebits, mkDebit, List.insertionSort, List.orderedInsert]
  · norm_num [roC6]

/-- C7: the implemented on-time pass refines the specification's description:
for a non-negative starting principal it leaves the same remaining principal
and the same debit list as the spec-worded pass (which scans eligible debits
in order, allocating `min(principal, remaining)` and decrementing both sides
until the principal is exhausted or no eligible debit remains), and its
recorded allocations, restricted to positive amounts, are exactly the spec
pass's allocations — the implementation merely also records zero-amount
allocations after the principal is exhausted, which change nothing. -/
theorem C7_on_time_pass_refinement :
    ∀ (cd dd : ℤ) (dbs : List DebitE) (rp : ℚ) (idx : ℕ), 0 ≤ rp →
      (onTimePass cd dd rp dbs idx).rp = (specOnTimePass cd dd rp dbs idx).rp ∧
      (onTimePass cd dd rp dbs idx).debits =
        (specOnTimePass cd dd rp dbs idx).debits ∧
      (onTimePass cd dd rp dbs idx).ms.filter (fun m => decide (0 < m.allocated)) =
        (specOnTimePass cd dd rp dbs idx).ms := by
  intro cd dd dbs
  induction dbs with
  | nil => intro rp idx _; exact ⟨rfl, rfl, rfl⟩
  | cons d rest ih =>
    intro rp idx hrp
    by_cases hrp0 : rp ≤ 0
    · have h0 : rp = 0 := le_antisymm hrp0 hrp
      subst h0
      have hz := onTimePass_zero cd dd (d :: rest) idx
      have hfilter : (onTimePass cd dd 0 (d :: rest) idx).ms.filter
          (fun m => decide (0 < m.allocated)) = [] := by
        rw [List.filter_eq_nil_iff]
        intro m hm
        have hma := hz.2.2 m hm
        simp [hma]
      simp only [specOnTimePass, if_pos (le_refl (0 : ℚ))]
      exact ⟨hz.1, hz.2.1, hfilter⟩
    · have hrppos : 0 < rp := lt_of_not_le hrp0
      by_cases hc : 0 < d.remaining ∧ cd ≤ d.date ∧ d.date ≤ dd
      · have halloc : 0 < min rp d.remaining := lt_min hrppos hc.1
        have hle : min rp d.remaining ≤ rp := min_le_left _ _
        have hrec := ih (rp - min rp d.remaining) (idx + 1) (by linarith)
        simp only [onTimePass, if_pos hc, specOnTimePass, if_neg hrp0,
          List.filter_cons]
        rw [if_pos (by simpa using halloc)]
        refine ⟨hrec.1, ?_, ?_⟩
        · rw [hrec.2.1]
        · rw [hrec.2.2]
      · have hrec := ih rp (idx + 1) hrp
        simp only [onTimePass, if_neg hc, specOnTimePass, if_neg hrp0, if_neg hc]
        exact ⟨hrec.1, by rw [hrec.2.1], hrec.2.2⟩

/-- C7 witness debit list. -/
def dbsC7 : List DebitE := [⟨3, 500, 500, "x"⟩, ⟨5, 400, 400, "y"⟩]

/-- Witness for C7 at a concrete pass: principal 700 over two in-window
debits. -/
theorem C7_on_time_pass_refinement_witness :
    0 ≤ (700 : ℚ) ∧
    ((onTimePass 0 10 700 dbsC7 0).rp = (specOnTimePass 0 10 700 dbsC7 0).rp ∧
     (onTimePass 0 10 700 dbsC7 0).debits = (specOnTimePass 0 10 700 dbsC7 0).debits ∧
     (onTimePass 0 10 700 dbsC7 0).ms.filter (fun m => decide (0 < m.allocated)) =
       (specOnTimePass 0 10 700 dbsC7 0).ms) :=
  ⟨by norm_num, C7_on_time_pass_refinement 0 10 dbsC7 700 0 (by norm_num)⟩

/-- C8: whenever a run returns a report, the aggregated totals satisfy
`gst = 0.18 * total_interest`,
`total_amount_due = total_principal + total_interest + gst`, and the
principal/interest totals are the sums over the overdue entries. -/
theorem C8_totals_equations :
    ∀ (parse : String → Option PyDateTime) (ts : List Txn) (r : Report),
      calculate_balances parse ts = .ok (.report r) →
      r.gst = (0.18 : ℚ) * r.total_interest ∧
      r.total_amount_due = r.total_principal + r.total_interest + r.gst ∧
      r.total_principal = (r.overdue_with_interest.map (·.unpaid_amount)).sum ∧
      r.total_interest = (r.overdue_with_interest.map (·.interest)).sum := by
  intro parse ts r h
  obtain ⟨ro, hro, rfl⟩ := calculate_balances_report h
  have ht := (runEngine_state hro).2.1
  exact ⟨rfl, rfl, ht.1, ht.2⟩

/-- C8 witness input: a settled run. -/
def tsC8 : List Txn :=
  [⟨0, 0, 500, 10, "c8", "c8d"⟩, ⟨3, 500, 0, 10, "d8", "d8d"⟩]

/-- C8 witness report. -/
def rC8 : Report := ⟨[], [], 500, 500, 0, 0, 0, 0, .aware 3⟩

/-- Witness for C8 at the concrete run `tsC8`. -/
theorem C8_totals_equations_witness :
    rC8.gst = (0.18 : ℚ) * rC8.total_interest ∧
    rC8.total_amount_due = rC8.total_principal + rC8.total_interest + rC8.gst ∧
    rC8.total_principal = (rC8.overdue_with_interest.map (·.unpaid_amount)).sum ∧
    rC8.total_interest = (rC8.overdue_with_interest.map (·.interest)).sum := by
  refine C8_totals_equations parse0 tsC8 rC8 ?_
  norm_num [tsC8, rC8, calculate_balances, runEngine, creditsLoop, processCredit,
    thresholdBlock, otpOf, unpaidOf, lpOf, onTimePass, latePass, sortedCredits,
    sortedDebits, mkCredit, mkDebit, daily_rate, threshold, days_between, pyGT,
    parse0, mkReport]

/-- C9: the engine is deterministic and idempotent — a call leaves the
caller's canonical transaction list unchanged, so running it again on what the
first call left behind yields the identical result. -/
theorem C9_idempotent :
    ∀ (parse : String → Option PyDateTime) (ts : List Txn),
      (calculate_balances_st parse ((calculate_balances_st parse ts).2)).1 =
        (calculate_balances_st parse ts).1 ∧
      (calculate_balances_st parse ts).2 = ts :=
  fun _ _ => ⟨rfl, rfl⟩

/-- C10 input: a credit of 1000 due day 10, a late partial debit of 400 on
day 15, reference date day 20. -/
def tsC10 : List Txn :=
  [⟨0, 0, 1000, 10, "h", "hd"⟩, ⟨15, 400, 0, 15, "i", "id"⟩, ⟨20, 0, 0, 20, "j", "jd"⟩]

/-- C10: the per-allocation accrual is exactly as the claim says — the first
segment accrues `1000 * 0.18 * 5 = 900` on the balance *before* the 400
allocation is subtracted, leaving balance 600 — but the claimed final segment
(`balance * 0.18 * max(referenceDate - cursor, 0)`) is never added: the run
raises `TypeError` there because the naive cursor is subtracted from the
timezone-aware reference date. -/
theorem C10_accrual_segments :
    latePass 10 1000 10 0 [⟨15, 400, 400, "i"⟩] 0 =
      ⟨600, 15, 900, [⟨15, 400, 0, "i"⟩], [⟨0, 15, 400, "i"⟩]⟩ ∧
    calculate_balances parse0 tsC10 = .error .typeError := by
  constructor <;>
    norm_num [tsC10, calculate_balances, runEngine, creditsLoop, processCredit,
      thresholdBlock, otpOf, unpaidOf, lpOf, onTimePass, latePass, sortedCredits,
      sortedDebits, mkCredit, mkDebit, daily_rate, threshold, days_between, pyGT,
      parse0, mkReport]
